import Mathlib

/-!
Hamming(7,4) codec: embedding of `Hamming.cpp` and its properties

A bit matrix (`Eigen::Matrix<bool, Dynamic, w>`) is a list of rows, each row a
list of bits.  The fixed column count of the Eigen type is not part of the list
type, so every access to an entry is bounds-checked and the operations return
`Option`: `none` stands for an access outside the matrix.  The `int` values the
code computes in `encode` and `correct` stay between -1 and 7, and its line
counter would need 2^31 lines to overflow, so they are unbounded integers here.
A `std::string` is the list of its characters.  A list without rows carries no
column count; that of the dynamic matrix `getMatrixFromFile` builds is
`getMatrixCols`.
-/

namespace Hamming

/-- A bit matrix, row-major. -/
abbrev BitMatrix := List (List Bool)

/-! ## Constant tables (`Hamming.cpp`, lines 84-98) -/

def pIndices : List (List Nat) := [[0, 1, 3], [0, 2, 3], [1, 2, 3]]

def pColumns : List Nat := [0, 1, 3]

def nonPColumns : List Nat := [2, 4, 5, 6]

def generator : BitMatrix :=
  [[true, true, false, true],
   [true, false, true, true],
   [true, false, false, false],
   [false, true, true, true],
   [false, true, false, false],
   [false, false, true, false],
   [false, false, false, true]]

def parityCheck : BitMatrix :=
  [[true, false, true, false, true, false, true],
   [false, true, true, false, false, true, true],
   [false, false, false, true, true, true, true]]

/-! ## Conversions and the matrix product -/

/-- The conversion `cast<int>()` of one entry, also the promotion of a `bool`
in integer arithmetic. -/
def castInt (b : Bool) : Int := if b then 1 else 0

/-- Storing an `int` in a `bool` entry: every non-zero value is `true`. -/
def intToBool (x : Int) : Bool := x != 0

/-- Map with a fallible function; fails as soon as one element fails. -/
def mapOpt {α β : Type} (f : α → Option β) : List α → Option (List β)
  | [] => some []
  | a :: as =>
    match f a with
    | none => none
    | some b =>
      match mapOpt f as with
      | none => none
      | some bs => some (b :: bs)

/-- Inner product of a matrix row with a column vector of the same size. -/
def dot : List Int → List Int → Option Int
  | [], [] => some 0
  | a :: as, b :: bs =>
    match dot as bs with
    | none => none
    | some s => some (a * b + s)
  | _, _ => none

/-- The product `m.cast<int>() * v.cast<int>()` of a bit matrix with a column
vector of bits, over the integers. -/
def matVec (m : BitMatrix) (v : List Bool) : Option (List Int) :=
  mapOpt (fun mrow => dot (mrow.map castInt) (v.map castInt)) m

/-- The loop `for (int r = first; r < first + count; r++) body`, threading the
state the body updates. -/
def forLoop {σ : Type} (body : Nat → σ → Option σ) : Nat → Nat → σ → Option σ
  | 0, _, s => some s
  | count + 1, r, s =>
    match body r s with
    | none => none
    | some s1 => forLoop body count (r + 1) s1

/-! ## `Hamming::encode` (lines 8-22) -/

/-- Lines 13-18 for one row: the product with the generator matrix, every entry
reduced modulo 2. -/
def encodeRow (row : List Bool) : Option (List Bool) :=
  match matVec generator row with
  | none => none
  | some newRowNotBits => some (newRowNotBits.map (fun x => intToBool (Int.tmod x 2)))

/-- One iteration of the loop of `encode`: row `r` of `encoded` is assigned. -/
def encodeBody (data : BitMatrix) (r : Nat) (encoded : BitMatrix) : Option BitMatrix :=
  match data[r]? with
  | none => none
  | some row =>
    match encodeRow row with
    | none => none
    | some newRow => some (encoded.set r newRow)

def encode (data : BitMatrix) : Option BitMatrix :=
  let numRows := data.length
  let encoded := List.replicate numRows (List.replicate 7 false)
  forLoop (encodeBody data) numRows 0 encoded

/-! ## `Hamming::correct` (lines 24-45) -/

/-- Lines 31-35: the product with the parity-check matrix, reduced modulo 2.
Only entries 0, 1, 2 of the 7-entry `syndrome` are written or read. -/
def syndromeOf (row : List Bool) : Option (List Bool) :=
  match matVec parityCheck row with
  | none => none
  | some syndromeNotBits => some (syndromeNotBits.map (fun x => intToBool (Int.tmod x 2)))

/-- Line 36: `syndrome(0,0)+syndrome(1,0)*2+syndrome(2,0)*4-1`. -/
def wrongBitIndex (row : List Bool) : Option Int :=
  match syndromeOf row with
  | some [s0, s1, s2] => some (castInt s0 + castInt s1 * 2 + castInt s2 * 4 - 1)
  | _ => none

/-- Read of `data(r, c)`; `none` outside the matrix. -/
def getEntry (data : BitMatrix) (r : Nat) (c : Int) : Option Bool :=
  if c < 0 then none
  else
    match data[r]? with
    | none => none
    | some row => row[c.toNat]?

/-- Write `data(r, c) = v`; `none` outside the matrix. -/
def setEntry (data : BitMatrix) (r : Nat) (c : Int) (v : Bool) : Option BitMatrix :=
  if c < 0 then none
  else
    match data[r]? with
    | none => none
    | some row =>
      if c.toNat < row.length then some (data.set r (row.set c.toNat v)) else none

/-- Lines 37-39: the flip of the wrong bit in the working copy `data`. -/
def flipWrongBit (data : BitMatrix) (r : Nat) (idx : Int) : Option BitMatrix :=
  if idx != -1 then
    match getEntry data r idx with
    | none => none
    | some b => setEntry data r idx (!b)
  else some data

/-- One iteration of the loop of `correct` on the state `(data, corrected)`. -/
def correctBody (r : Nat) (st : BitMatrix × BitMatrix) : Option (BitMatrix × BitMatrix) :=
  match st.1[r]? with
  | none => none
  | some row =>
    match wrongBitIndex row with
    | none => none
    | some idx =>
      match flipWrongBit st.1 r idx with
      | none => none
      | some data1 =>
        match mapOpt (fun c => getEntry data1 r (Int.ofNat c)) nonPColumns with
        | none => none
        | some bits => some (data1, st.2.set r bits)

def correct (data : BitMatrix) : Option BitMatrix :=
  let numRows := data.length
  let corrected := List.replicate numRows (List.replicate 4 false)
  match forLoop correctBody numRows 0 (data, corrected) with
  | none => none
  | some st => some st.2

/-! ## `Hamming::getMatrixFromFile` (lines 47-82) and `matrixRowToString` -/

/-- The lines that successive calls of `std::getline(file, line)` deliver for a
stream with the given remaining characters: the pieces between line feeds,
without a last empty piece (at the end of the stream `getline` fails). -/
def readLines : List Char → List (List Char)
  | [] => []
  | c :: cs =>
    if c = '\n' then [] :: readLines cs
    else
      match readLines cs with
      | [] => [[c]]
      | l :: ls => (c :: l) :: ls

/-- The decimal digits `std::to_string` gives for a non-negative number. -/
def toStr (n : Nat) : List Char := Nat.toDigits 10 n

/-- Line 60: every carriage return is erased from the line. -/
def removeCR (line : List Char) : List Char := line.filter (fun c => c != '\r')

/-- A list cut or padded to `n` elements. -/
def resizeList {α : Type} (n : Nat) (fill : α) (l : List α) : List α :=
  l.take n ++ List.replicate (n - l.length) fill

/-- `messages.conservativeResize(rows, cols)`: the entries that stay are kept;
the new ones, which the code leaves uninitialised, are `false` here. -/
def conservativeResize (rows cols : Nat) (messages : BitMatrix) : BitMatrix :=
  resizeList rows (List.replicate cols false) (messages.map (resizeList cols false))

/-- The write `messages(r, i) = v` (inside the matrix by the length test of
line 61; a write outside would leave the lists as they are). -/
def writeEntry (messages : BitMatrix) (r i : Nat) (v : Bool) : BitMatrix :=
  match messages[r]? with
  | none => messages
  | some row => messages.set r (row.set i v)

/-- Lines 67-77: the characters of the line from index `i` on.  The first
component is the invalid character at which the loop returned, if any. -/
def scanLine (currentRow : Nat) : Nat → List Char → BitMatrix → Option Char × BitMatrix
  | _, [], messages => (none, messages)
  | i, c :: cs, messages =>
    if c != '0' && c != '1' then (some c, messages)
    else scanLine currentRow (i + 1) cs (writeEntry messages currentRow i (c == '1'))

/-- The `while (std::getline(file,line))` loop over the lines still to come. -/
def readLoop (numCols : Nat) : List (List Char) → Nat → BitMatrix → List Char × BitMatrix
  | [], _, messages => ([], messages)
  | rawLine :: rest, currentRow, messages =>
    let line := removeCR rawLine
    if line.length != numCols then
      (String.toList "Error: line " ++ toStr (currentRow + 1)
        ++ String.toList " is of length " ++ toStr line.length
        ++ String.toList ", not " ++ toStr numCols, messages)
    else
      match scanLine currentRow 0 line (conservativeResize (currentRow + 1) numCols messages) with
      | (some c, messages1) =>
        (String.toList "Error: invalid character " ++ [c]
          ++ String.toList " at line " ++ toStr (currentRow + 1), messages1)
      | (none, messages1) => readLoop numCols rest (currentRow + 1) messages1

/-- The pair of the error message and the matrix.  `good` is `file.good()` at
the call and `content` the characters of the file. -/
def getMatrixFromFile (good : Bool) (content : List Char) (encoding : Bool) :
    List Char × BitMatrix :=
  if !good then (String.toList "Error: file does not appear to exist", [])
  else
    let numCols := if encoding then 4 else 7
    readLoop numCols (readLines content) 0 []

/-- The value of `messages.cols()` along the `while` loop, next to `readLoop`:
`cols` is the column count before the lines still to come.  The matrix is
default-constructed with no rows and no columns (line 50); only
`conservativeResize` (line 66) changes the count, to `numCols`. -/
def readLoopCols (numCols : Nat) : List (List Char) → Nat → BitMatrix → Nat → Nat
  | [], _, _, cols => cols
  | rawLine :: rest, currentRow, messages, cols =>
    let line := removeCR rawLine
    if line.length != numCols then cols
    else
      match scanLine currentRow 0 line (conservativeResize (currentRow + 1) numCols messages) with
      | (some _, _) => numCols
      | (none, messages1) => readLoopCols numCols rest (currentRow + 1) messages1 numCols

/-- The value of `cols()` of the matrix `getMatrixFromFile` returns. -/
def getMatrixCols (good : Bool) (content : List Char) (encoding : Bool) : Nat :=
  if !good then 0
  else
    let numCols := if encoding then 4 else 7
    readLoopCols numCols (readLines content) 0 [] 0

def matrixRowToString (row : List Bool) : List Char :=
  row.map (fun b => if b then '1' else '0')

/-! ## Notions the properties are stated with -/

/-- The row with the bit at position `p` complemented. -/
def flipBit : List Bool → Nat → List Bool
  | [], _ => []
  | b :: bs, 0 => (!b) :: bs
  | b :: bs, p + 1 => b :: flipBit bs p

/-- The number of positions in which two rows differ. -/
def distance : List Bool → List Bool → Nat
  | a :: as, b :: bs => (if a = b then 0 else 1) + distance as bs
  | _, _ => 0

/-- Lines 37-39 seen on the row alone: the row after the flip of the wrong bit. -/
def flipRow (row : List Bool) (idx : Int) : Option (List Bool) :=
  if idx != -1 then
    if idx < 0 then none
    else
      match row[idx.toNat]? with
      | none => none
      | some b => some (row.set idx.toNat (!b))
  else some row

/-- One iteration of `correct` seen on the row alone: the row after the flip and
the four bits read from it. -/
def correctRow (row : List Bool) : Option (List Bool × List Bool) :=
  match wrongBitIndex row with
  | none => none
  | some idx =>
    match flipRow row idx with
    | none => none
    | some row1 =>
      match mapOpt (fun c => row1[c]?) nonPColumns with
      | none => none
      | some bits => some (row1, bits)

/-- The bits `correct` returns for one row. -/
def decodeRow (row : List Bool) : Option (List Bool) :=
  match correctRow row with
  | none => none
  | some res => some res.2

/-- The bitwise exclusive or of two rows. -/
def xorRows (a b : List Bool) : List Bool := List.zipWith xor a b

/-- A line is valid for the width `w`: `w` characters, each `0` or `1`. -/
def ValidLine (w : Nat) (line : List Char) : Prop :=
  line.length = w ∧ ∀ c ∈ line, c = '0' ∨ c = '1'

/-- The length-mismatch message for line number `k` of length `len`, the
required width being `w`: `Error: line k is of length len, not w`. -/
def lengthMessage (k len w : Nat) : List Char :=
  String.toList "Error: line " ++ toStr k ++ String.toList " is of length " ++ toStr len
    ++ String.toList ", not " ++ toStr w

/-- The invalid-character message for the character `c` in line number `k`:
`Error: invalid character c at line k`. -/
def charMessage (c : Char) (k : Nat) : List Char :=
  String.toList "Error: invalid character " ++ [c] ++ String.toList " at line " ++ toStr k

/-- The message `msg` is about `line`, the line of index `k` of `lines`, numbered
`base + k + 1`: every earlier line is valid, and `msg` is either the
length-mismatch message with the length of the line (carriage returns removed),
or, the length being right, the invalid-character message with the first
character of the line that is neither `0` nor `1`. -/
def Reports (w : Nat) (lines : List (List Char)) (base : Nat) (msg : List Char)
    (k : Nat) (line : List Char) : Prop :=
  lines[k]? = some line
    ∧ (∀ j l, j < k → lines[j]? = some l → ValidLine w (removeCR l))
    ∧ (((removeCR line).length ≠ w
          ∧ msg = lengthMessage (base + k + 1) (removeCR line).length w)
        ∨ ((removeCR line).length = w
          ∧ ∃ pre c post, removeCR line = pre ++ c :: post
              ∧ (∀ x ∈ pre, x = '0' ∨ x = '1') ∧ ¬ (c = '0' ∨ c = '1')
              ∧ msg = charMessage c (base + k + 1)))

/-! ## Rows of a fixed width -/

theorem length_four {α : Type} (m : List α) (h : m.length = 4) :
    ∃ a b c d, m = [a, b, c, d] := by
  match m, h with
  | [a, b, c, d], _ => exact ⟨a, b, c, d, rfl⟩

theorem length_seven {α : Type} (m : List α) (h : m.length = 7) :
    ∃ a b c d e f g, m = [a, b, c, d, e, f, g] := by
  match m, h with
  | [a, b, c, d, e, f, g], _ => exact ⟨a, b, c, d, e, f, g, rfl⟩

/-! ## The loops of `encode` and `correct` work row by row -/

theorem take_set_succ {α : Type} (l : List α) (r : Nat) (x : α) (h : r < l.length) :
    (l.set r x).take (r + 1) = l.take r ++ [x] := by
  induction l generalizing r with
  | nil => simp at h
  | cons a as ih =>
    cases r with
    | zero => simp
    | succ r =>
      have h1 : r < as.length := by simpa using h
      simp [ih r h1]

theorem set_of_getElem? {α : Type} (l : List α) (r : Nat) (x : α) (h : l[r]? = some x) :
    l.set r x = l := by
  induction l generalizing r with
  | nil => simp at h
  | cons a as ih =>
    cases r with
    | zero =>
      have : a = x := by simpa using h
      simp [this]
    | succ r =>
      have h1 : as[r]? = some x := by simpa using h
      simp [ih r h1]

theorem drop_of_getElem? {α : Type} (l : List α) (r : Nat) (x : α) (h : l[r]? = some x) :
    l.drop r = x :: l.drop (r + 1) := by
  induction l generalizing r with
  | nil => simp at h
  | cons a as ih =>
    cases r with
    | zero =>
      have : a = x := by simpa using h
      simp [this]
    | succ r =>
      have h1 : as[r]? = some x := by simpa using h
      simpa using ih r h1

theorem getElem?_of_lt {α : Type} (l : List α) (r : Nat) (h : r < l.length) :
    ∃ x, l[r]? = some x := ⟨l[r], by simp [h]⟩

theorem encode_loop (data : BitMatrix) (count : Nat) :
    ∀ (r : Nat) (encoded : BitMatrix), r + count = data.length →
      encoded.length = data.length →
      forLoop (encodeBody data) count r encoded
        = (mapOpt encodeRow (data.drop r)).map (fun rows => encoded.take r ++ rows) := by
  induction count with
  | zero =>
    intro r encoded hr he
    have h1 : data.drop r = [] := by simp; omega
    have h2 : encoded.take r = encoded := by simp; omega
    simp [forLoop, h1, h2, mapOpt]
  | succ count ih =>
    intro r encoded hr he
    obtain ⟨row, hrow⟩ := getElem?_of_lt data r (by omega)
    rw [drop_of_getElem? data r row hrow]
    simp only [forLoop, encodeBody, hrow, mapOpt]
    cases hrowenc : encodeRow row with
    | none => simp
    | some newRow =>
      simp only []
      rw [ih (r + 1) (encoded.set r newRow) (by omega) (by simpa using he)]
      rw [take_set_succ encoded r newRow (by omega)]
      cases mapOpt encodeRow (data.drop (r + 1)) <;> simp

/-- The loop of `encode` gives the rows `encodeRow` gives, in order. -/
theorem encode_eq (data : BitMatrix) : encode data = mapOpt encodeRow data := by
  have h := encode_loop data data.length 0 (List.replicate data.length (List.replicate 7 false))
    (by simp) (by simp)
  simp only [encode, h, List.drop_zero, List.take_zero, List.nil_append]
  cases mapOpt encodeRow data <;> simp

theorem getElem?_set_self_of_some {α : Type} (l : List α) (r : Nat) (x y : α)
    (h : l[r]? = some x) : (l.set r y)[r]? = some y := by
  induction l generalizing r with
  | nil => simp at h
  | cons a as ih =>
    cases r with
    | zero => simp
    | succ r =>
      have h1 : as[r]? = some x := by simpa using h
      simpa using ih r h1

theorem getEntry_of_row (data : BitMatrix) (r : Nat) (row : List Bool) (c : Int)
    (h : data[r]? = some row) :
    getEntry data r c = if c < 0 then none else row[c.toNat]? := by
  simp [getEntry, h]

theorem flipWrongBit_eq (data : BitMatrix) (r : Nat) (row : List Bool) (idx : Int)
    (h : data[r]? = some row) :
    flipWrongBit data r idx = (flipRow row idx).map (fun row1 => data.set r row1) := by
  unfold flipWrongBit flipRow
  by_cases h1 : idx = -1
  · simp [h1, set_of_getElem? data r row h]
  · by_cases h2 : idx < 0
    · simp [h1, h2, getEntry]
    · simp only [bne_iff_ne, ne_eq, h1, not_false_eq_true, if_true, h2, if_false,
        getEntry_of_row data r row idx h]
      cases hb : row[idx.toNat]? with
      | none => simp
      | some b =>
        have hlt : idx.toNat < row.length := by
          by_contra hge
          have : row[idx.toNat]? = none := by simp; omega
          simp [this] at hb
        simp [setEntry, h2, h, hlt]

theorem correctBody_eq (data corrected : BitMatrix) (r : Nat) (row : List Bool)
    (h : data[r]? = some row) :
    correctBody r (data, corrected)
      = (correctRow row).map (fun res => (data.set r res.1, corrected.set r res.2)) := by
  simp only [correctBody, correctRow, h]
  cases wrongBitIndex row with
  | none => simp
  | some idx =>
    simp only [flipWrongBit_eq data r row idx h]
    cases flipRow row idx with
    | none => simp
    | some row1 =>
      have hget : ∀ c : Nat, getEntry (data.set r row1) r (Int.ofNat c) = row1[c]? := by
        intro c
        rw [getEntry_of_row (data.set r row1) r row1 _
          (getElem?_set_self_of_some data r row row1 h)]
        simp
      simp only [Option.map_some', hget]
      cases mapOpt (fun c => row1[c]?) nonPColumns <;> simp

theorem correct_loop (count : Nat) :
    ∀ (r : Nat) (data corrected : BitMatrix), r + count = data.length →
      corrected.length = data.length →
      (forLoop correctBody count r (data, corrected)).map Prod.snd
        = (mapOpt decodeRow (data.drop r)).map (fun rows => corrected.take r ++ rows) := by
  induction count with
  | zero =>
    intro r data corrected hr he
    have h1 : data.drop r = [] := by simp; omega
    have h2 : corrected.take r = corrected := by simp; omega
    simp [forLoop, h1, h2, mapOpt]
  | succ count ih =>
    intro r data corrected hr he
    obtain ⟨row, hrow⟩ := getElem?_of_lt data r (by omega)
    rw [drop_of_getElem? data r row hrow]
    simp only [forLoop, correctBody_eq data corrected r row hrow, mapOpt, decodeRow]
    cases hres : correctRow row with
    | none => simp
    | some res =>
      simp only [Option.map_some']
      rw [ih (r + 1) (data.set r res.1) (corrected.set r res.2) (by simp; omega)
        (by simpa using he)]
      rw [take_set_succ corrected r res.2 (by omega)]
      have hdrop : (data.set r res.1).drop (r + 1) = data.drop (r + 1) := by
        simp [List.drop_set]
      rw [hdrop]
      cases mapOpt decodeRow (data.drop (r + 1)) <;> simp [decodeRow]

/-- The loop of `correct` gives the rows `decodeRow` gives, in order. -/
theorem correct_eq (data : BitMatrix) : correct data = mapOpt decodeRow data := by
  have h := correct_loop data.length 0 data (List.replicate data.length (List.replicate 4 false))
    (by simp) (by simp)
  simp only [List.drop_zero, List.take_zero, List.nil_append] at h
  have hc : correct data
      = (forLoop correctBody data.length 0
          (data, List.replicate data.length (List.replicate 4 false))).map Prod.snd := by
    simp only [correct]
    cases forLoop correctBody data.length 0
      (data, List.replicate data.length (List.replicate 4 false)) <;> rfl
  rw [hc, h]
  cases mapOpt decodeRow data <;> simp

theorem mapOpt_cons_some {α β : Type} (f : α → Option β) (a : α) (as : List α)
    (out : List β) (h : mapOpt f (a :: as) = some out) :
    ∃ b bs, f a = some b ∧ mapOpt f as = some bs ∧ out = b :: bs := by
  simp only [mapOpt] at h
  cases hfa : f a with
  | none => simp [hfa] at h
  | some b =>
    cases hrest : mapOpt f as with
    | none => simp [hfa, hrest] at h
    | some bs =>
      simp only [hfa, hrest, Option.some.injEq] at h
      exact ⟨b, bs, rfl, rfl, h.symm⟩

theorem mapOpt_length {α β : Type} (f : α → Option β) (l : List α) :
    ∀ out, mapOpt f l = some out → out.length = l.length := by
  induction l with
  | nil => intro out h; simp only [mapOpt, Option.some.injEq] at h; simp [← h]
  | cons a as ih =>
    intro out h
    obtain ⟨b, bs, _, hbs, rfl⟩ := mapOpt_cons_some f a as out h
    simp [ih bs hbs]

theorem mapOpt_getElem? {α β : Type} (f : α → Option β) (l : List α) :
    ∀ out : List β, mapOpt f l = some out →
      ∀ (r : Nat) x, l[r]? = some x → ∃ y, out[r]? = some y ∧ f x = some y := by
  induction l with
  | nil => intro out _ r x hx; simp at hx
  | cons a as ih =>
    intro out h r x hx
    obtain ⟨b, bs, hb, hbs, rfl⟩ := mapOpt_cons_some f a as out h
    cases r with
    | zero =>
      have : a = x := by simpa using hx
      exact ⟨b, by simp, this ▸ hb⟩
    | succ r =>
      have hx1 : as[r]? = some x := by simpa using hx
      obtain ⟨y, hy, hfy⟩ := ih bs hbs r x hx1
      exact ⟨y, by simpa using hy, hfy⟩

theorem mapOpt_mem {α β : Type} (f : α → Option β) (l : List α) :
    ∀ out, mapOpt f l = some out → ∀ y ∈ out, ∃ x ∈ l, f x = some y := by
  induction l with
  | nil => intro out h y hy; simp only [mapOpt, Option.some.injEq] at h; simp [← h] at hy
  | cons a as ih =>
    intro out h y hy
    obtain ⟨b, bs, hb, hbs, rfl⟩ := mapOpt_cons_some f a as out h
    rcases List.mem_cons.mp hy with rfl | hy1
    · exact ⟨a, by simp, hb⟩
    · obtain ⟨x, hx, hfx⟩ := ih bs hbs y hy1
      exact ⟨x, by simp [hx], hfx⟩

theorem mapOpt_total {α β : Type} (f : α → Option β) (l : List α)
    (h : ∀ x ∈ l, ∃ y, f x = some y) : ∃ out, mapOpt f l = some out := by
  induction l with
  | nil => exact ⟨[], rfl⟩
  | cons a as ih =>
    obtain ⟨b, hb⟩ := h a (by simp)
    obtain ⟨bs, hbs⟩ := ih (fun x hx => h x (by simp [hx]))
    exact ⟨b :: bs, by simp [mapOpt, hb, hbs]⟩

theorem mapOpt_single {α β : Type} (f : α → Option β) (a : α) (b : β) (h : f a = some b) :
    mapOpt f [a] = some [b] := by
  simp [mapOpt, h]

theorem encodeRow_total (row : List Bool) (h : row.length = 4) :
    ∃ cw, encodeRow row = some cw ∧ cw.length = 7 := by
  obtain ⟨a, b, c, d, rfl⟩ := length_four row h
  cases a <;> cases b <;> cases c <;> cases d <;> exact ⟨_, rfl, rfl⟩

theorem decodeRow_total (row : List Bool) (h : row.length = 7) :
    ∃ idx, wrongBitIndex row = some idx ∧ -1 ≤ idx ∧ idx ≤ 6
      ∧ ∃ out, decodeRow row = some out ∧ out.length = 4 := by
  obtain ⟨a, b, c, d, e, f, g, rfl⟩ := length_seven row h
  cases a <;> cases b <;> cases c <;> cases d <;> cases e <;> cases f <;> cases g <;>
    exact ⟨_, rfl, by decide, by decide, _, rfl, rfl⟩

theorem correctBody_other_rows (r : Nat) (st st1 : BitMatrix × BitMatrix)
    (h : correctBody r st = some st1) (r1 : Nat) (hne : r1 ≠ r) :
    st1.1[r1]? = st.1[r1]? ∧ st1.2[r1]? = st.2[r1]? := by
  cases hrow : st.1[r]? with
  | none => simp [correctBody, hrow] at h
  | some row =>
    have hb := correctBody_eq st.1 st.2 r row hrow
    rw [show (st.1, st.2) = st from rfl, h] at hb
    cases hres : correctRow row with
    | none => simp [hres] at hb
    | some res =>
      simp only [hres, Option.map_some', Option.some.injEq] at hb
      subst hb
      have hne1 : r ≠ r1 := fun e => hne e.symm
      simp [List.getElem?_set_ne hne1]

/-! ## The reading loop -/

theorem scanLine_none_iff (currentRow : Nat) (cs : List Char) :
    ∀ (i : Nat) (messages : BitMatrix),
      (scanLine currentRow i cs messages).1 = none ↔ ∀ c ∈ cs, c = '0' ∨ c = '1' := by
  induction cs with
  | nil => intro i messages; simp [scanLine]
  | cons c cs ih =>
    intro i messages
    by_cases hc : c = '0' ∨ c = '1'
    · have hcond : (c != '0' && c != '1') = false := by
        rcases hc with rfl | rfl <;> decide
      simp only [scanLine, hcond, Bool.false_eq_true, if_false, ih, List.mem_cons,
        forall_eq_or_imp, hc, true_and]
    · have hcond : (c != '0' && c != '1') = true := by
        simp only [not_or] at hc
        simp [hc.1, hc.2]
      simp [scanLine, hcond, hc]

theorem readLoop_accepts_iff (numCols : Nat) (lines : List (List Char)) :
    ∀ (currentRow : Nat) (messages : BitMatrix),
      (readLoop numCols lines currentRow messages).1 = []
        ↔ ∀ line ∈ lines, ValidLine numCols (removeCR line) := by
  induction lines with
  | nil => intro currentRow messages; simp [readLoop]
  | cons rawLine rest ih =>
    intro currentRow messages
    simp only [List.mem_cons, forall_eq_or_imp, ValidLine]
    by_cases hlen : (removeCR rawLine).length = numCols
    · have hne : ((removeCR rawLine).length != numCols) = false := by simp [hlen]
      simp only [readLoop, hne, Bool.false_eq_true, if_false]
      have hscan := scanLine_none_iff currentRow (removeCR rawLine) 0
        (conservativeResize (currentRow + 1) numCols messages)
      cases hres : scanLine currentRow 0 (removeCR rawLine)
          (conservativeResize (currentRow + 1) numCols messages) with
      | mk bad messages1 =>
        rw [hres] at hscan
        cases bad with
        | none =>
          have hall := hscan.mp rfl
          simp only [ih (currentRow + 1) messages1, ValidLine]
          exact ⟨fun h => ⟨⟨hlen, hall⟩, h⟩, fun h => h.2⟩
        | some c =>
          have hnot : ¬ ∀ c ∈ removeCR rawLine, c = '0' ∨ c = '1' :=
            fun hall => by simpa using hscan.mpr hall
          constructor
          · intro h
            simp [String.toList] at h
          · intro h
            exact absurd h.1.2 hnot
    · have hne : ((removeCR rawLine).length != numCols) = true := by simp [hlen]
      simp only [readLoop, hne, if_true]
      constructor
      · intro h
        simp [String.toList] at h
      · intro h
        exact absurd h.1.1 hlen

theorem scanLine_some (currentRow : Nat) (cs : List Char) :
    ∀ (i : Nat) (messages : BitMatrix) (c : Char),
      (scanLine currentRow i cs messages).1 = some c →
      ∃ pre post, cs = pre ++ c :: post ∧ (∀ x ∈ pre, x = '0' ∨ x = '1')
        ∧ ¬ (c = '0' ∨ c = '1') := by
  induction cs with
  | nil => intro i messages c h; simp [scanLine] at h
  | cons x xs ih =>
    intro i messages c h
    by_cases hx : x = '0' ∨ x = '1'
    · have hcond : (x != '0' && x != '1') = false := by
        rcases hx with rfl | rfl <;> decide
      simp only [scanLine, hcond, Bool.false_eq_true, if_false] at h
      obtain ⟨pre, post, hsplit, hpre, hc⟩ := ih _ _ c h
      refine ⟨x :: pre, post, by simp [hsplit], ?_, hc⟩
      intro y hy
      rcases List.mem_cons.mp hy with rfl | hy1
      · exact hx
      · exact hpre y hy1
    · have hcond : (x != '0' && x != '1') = true := by
        simp only [not_or] at hx
        simp [hx.1, hx.2]
      simp only [scanLine, hcond, if_true, Option.some.injEq] at h
      subst h
      exact ⟨[], xs, rfl, by simp, hx⟩

/-- The message of the reading loop is empty, or it reports the first line that
is not valid. -/
theorem readLoop_message (numCols : Nat) (lines : List (List Char)) :
    ∀ (currentRow : Nat) (messages : BitMatrix),
      (readLoop numCols lines currentRow messages).1 = []
        ∨ ∃ k line, Reports numCols lines currentRow
            (readLoop numCols lines currentRow messages).1 k line := by
  induction lines with
  | nil => intro currentRow messages; left; simp [readLoop]
  | cons rawLine rest ih =>
    intro currentRow messages
    by_cases hlen : (removeCR rawLine).length = numCols
    · have hne : ((removeCR rawLine).length != numCols) = false := by simp [hlen]
      have hnone := scanLine_none_iff currentRow (removeCR rawLine) 0
        (conservativeResize (currentRow + 1) numCols messages)
      have hsome := scanLine_some currentRow (removeCR rawLine) 0
        (conservativeResize (currentRow + 1) numCols messages)
      simp only [readLoop, hne, Bool.false_eq_true, if_false]
      cases hres : scanLine currentRow 0 (removeCR rawLine)
          (conservativeResize (currentRow + 1) numCols messages) with
      | mk bad messages1 =>
        rw [hres] at hnone hsome
        cases bad with
        | none =>
          have hall := hnone.mp rfl
          rcases ih (currentRow + 1) messages1 with hempty | ⟨k, line, hk, hbefore, hmsg⟩
          · left; exact hempty
          · right
            refine ⟨k + 1, line, by simpa using hk, ?_, ?_⟩
            · intro j l hj hl
              cases j with
              | zero =>
                have : rawLine = l := by simpa using hl
                subst this
                exact ⟨hlen, hall⟩
              | succ j => exact hbefore j l (by omega) (by simpa using hl)
            · have harith : currentRow + 1 + k + 1 = currentRow + (k + 1) + 1 := by omega
              rw [harith] at hmsg
              exact hmsg
        | some c =>
          right
          obtain ⟨pre, post, hsplit, hpre, hc⟩ := hsome c rfl
          refine ⟨0, rawLine, by simp, ?_, Or.inr ⟨hlen, pre, c, post, hsplit, hpre, hc, rfl⟩⟩
          intro j l hj
          omega
    · have hne : ((removeCR rawLine).length != numCols) = true := by simp [hlen]
      right
      refine ⟨0, rawLine, by simp, ?_, Or.inl ⟨hlen, ?_⟩⟩
      · intro j l hj
        omega
      · simp only [readLoop, hne, if_true]
        rfl

theorem lengthMessage_ne_nil (k len w : Nat) : lengthMessage k len w ≠ [] := by
  simp [lengthMessage, String.toList]

theorem charMessage_ne_nil (c : Char) (k : Nat) : charMessage c k ≠ [] := by
  simp [charMessage, String.toList]

/-- The line a message reports is the first line that is not valid. -/
theorem reports_first (w : Nat) (lines : List (List Char)) (base : Nat) (msg : List Char)
    (k : Nat) (line : List Char) (h : Reports w lines base msg k line)
    (k1 : Nat) (line1 : List Char) (hk1 : lines[k1]? = some line1)
    (hbad : ¬ ValidLine w (removeCR line1))
    (hbefore : ∀ j l, j < k1 → lines[j]? = some l → ValidLine w (removeCR l)) :
    k = k1 ∧ line = line1 := by
  obtain ⟨hk, hprev, hmsg⟩ := h
  have hbadk : ¬ ValidLine w (removeCR line) := by
    rcases hmsg with ⟨hlen, _⟩ | ⟨_, pre, c, post, hsplit, _, hc, _⟩
    · exact fun hv => hlen hv.1
    · exact fun hv => hc (hv.2 c (by simp [hsplit]))
  have hkk : k = k1 := by
    rcases Nat.lt_trichotomy k k1 with hlt | heq | hgt
    · exact absurd (hbefore k line hlt hk) hbadk
    · exact heq
    · exact absurd (hprev k1 line1 hgt hk1) hbad
  subst hkk
  rw [hk] at hk1
  exact ⟨rfl, by simpa using hk1⟩

/-! ## The matrix the reading loop builds -/

theorem resizeList_self {α : Type} (n : Nat) (fill : α) (l : List α) (h : l.length = n) :
    resizeList n fill l = l := by
  subst h
  simp [resizeList]

theorem conservativeResize_append (currentRow numCols : Nat) (messages : BitMatrix)
    (hrows : messages.length = currentRow) (hcols : ∀ row ∈ messages, row.length = numCols) :
    conservativeResize (currentRow + 1) numCols messages
      = messages ++ [List.replicate numCols false] := by
  have hmap : messages.map (resizeList numCols false) = messages := by
    conv => rhs; rw [← List.map_id messages]
    exact List.map_congr_left (fun row hrow => resizeList_self _ _ _ (hcols row hrow))
  unfold conservativeResize
  rw [hmap]
  subst hrows
  simp [resizeList, List.take_of_length_le]

theorem set_append_last {α : Type} (ms : List α) (x y : α) :
    (ms ++ [x]).set ms.length y = ms ++ [y] := by
  induction ms with
  | nil => rfl
  | cons a as ih => simp [ih]

theorem set_append_mid {α : Type} (pre suf : List α) (x y : α) :
    (pre ++ x :: suf).set pre.length y = pre ++ y :: suf := by
  induction pre with
  | nil => rfl
  | cons a as ih => simp [ih]

theorem getElem?_append_last {α : Type} (ms : List α) (x : α) :
    (ms ++ [x])[ms.length]? = some x := by
  induction ms with
  | nil => rfl
  | cons a as ih => simp

theorem scanLine_writes (messages : BitMatrix) (cs : List Char) :
    ∀ (pre suf : List Bool), suf.length = cs.length → (∀ c ∈ cs, c = '0' ∨ c = '1') →
      scanLine messages.length pre.length cs (messages ++ [pre ++ suf])
        = (none, messages ++ [pre ++ cs.map (fun c => c == '1')]) := by
  induction cs with
  | nil =>
    intro pre suf hsuf _
    have : suf = [] := List.eq_nil_of_length_eq_zero (by simpa using hsuf)
    simp [scanLine, this]
  | cons c cs ih =>
    intro pre suf hsuf hvalid
    cases suf with
    | nil => simp at hsuf
    | cons b suf =>
      have hc : c = '0' ∨ c = '1' := hvalid c (by simp)
      have hcond : (c != '0' && c != '1') = false := by
        rcases hc with rfl | rfl <;> decide
      have hwrite : writeEntry (messages ++ [pre ++ b :: suf]) messages.length pre.length
          (c == '1') = messages ++ [(pre ++ [c == '1']) ++ suf] := by
        simp only [writeEntry, getElem?_append_last, set_append_mid, set_append_last]
        simp
      have hlen : pre.length + 1 = (pre ++ [c == '1']).length := by simp
      simp only [scanLine, hcond, Bool.false_eq_true, if_false, hwrite]
      rw [hlen, ih (pre ++ [c == '1']) suf (by simpa using hsuf)
        (fun x hx => hvalid x (by simp [hx]))]
      simp

theorem readLoop_matrix (numCols : Nat) (lines : List (List Char)) :
    ∀ (messages : BitMatrix), (∀ row ∈ messages, row.length = numCols) →
      (∀ line ∈ lines, ValidLine numCols (removeCR line)) →
      readLoop numCols lines messages.length messages
        = ([], messages ++ lines.map (fun line => (removeCR line).map (fun c => c == '1'))) := by
  induction lines with
  | nil => intro messages _ _; simp [readLoop]
  | cons rawLine rest ih =>
    intro messages hcols hvalid
    obtain ⟨hlen, hchars⟩ := hvalid rawLine (by simp)
    have hne : ((removeCR rawLine).length != numCols) = false := by simp [hlen]
    have hscan := scanLine_writes messages (removeCR rawLine) [] (List.replicate numCols false)
      (by simp [hlen]) hchars
    simp only [List.nil_append, List.length_nil] at hscan
    simp only [readLoop, hne, Bool.false_eq_true, if_false,
      conservativeResize_append messages.length numCols messages rfl hcols, hscan]
    have hlen1 : messages.length + 1
        = (messages ++ [(removeCR rawLine).map (fun c => c == '1')]).length := by simp
    rw [hlen1, ih _ (by
      intro row hrow
      rcases List.mem_append.mp hrow with h | h
      · exact hcols row h
      · have : row = (removeCR rawLine).map (fun c => c == '1') := by simpa using h
        simp [this, hlen]) (fun line hline => hvalid line (by simp [hline]))]
    simp

theorem matrixRowToString_parse (line : List Char) (h : ∀ c ∈ line, c = '0' ∨ c = '1') :
    matrixRowToString (line.map (fun c => c == '1')) = line := by
  induction line with
  | nil => rfl
  | cons c cs ih =>
    have hc : c = '0' ∨ c = '1' := h c (by simp)
    have ih1 := ih (fun x hx => h x (by simp [hx]))
    simp only [matrixRowToString, List.map_cons, List.map_map] at ih1 ⊢
    rw [ih1]
    rcases hc with rfl | rfl <;> simp

/-! ## Properties of one row -/

/-- C2. Round trip without corruption: decoding the codeword of a 4-bit message
row gives the message back, bits in their original order. -/
theorem round_trip (m : List Bool) (hm : m.length = 4) :
    ∃ cw, encode [m] = some [cw] ∧ correct [cw] = some [m] := by
  obtain ⟨a, b, c, d, rfl⟩ := length_four m hm
  cases a <;> cases b <;> cases c <;> cases d <;> exact ⟨_, rfl, rfl⟩

theorem round_trip_witness :
    ∃ cw, encode [[true, false, true, false]] = some [cw]
      ∧ correct [cw] = some [[true, false, true, false]] :=
  round_trip [true, false, true, false] rfl

/-- C1. Single-flip correction: the codeword of a 4-bit message row with one of
its seven bits flipped is decoded to the message. -/
theorem single_flip_correction (m : List Bool) (p : Nat) (hm : m.length = 4) (hp : p < 7) :
    ∃ cw, encode [m] = some [cw] ∧ correct [flipBit cw p] = some [m] := by
  obtain ⟨a, b, c, d, rfl⟩ := length_four m hm
  interval_cases p <;> cases a <;> cases b <;> cases c <;> cases d <;> exact ⟨_, rfl, rfl⟩

theorem single_flip_correction_witness :
    ∃ cw, encode [[true, false, true, false]] = some [cw]
      ∧ correct [flipBit cw 5] = some [[true, false, true, false]] :=
  single_flip_correction [true, false, true, false] 5 rfl (by decide)

/-- The codeword of a message row, entry by entry. -/
theorem encode_single (a b c d : Bool) :
    encode [[a, b, c, d]]
      = some [[xor a (xor b d), xor a (xor c d), a, xor b (xor c d), b, c, d]] := by
  cases a <;> cases b <;> cases c <;> cases d <;> rfl

/-- C5. Codeword layout: positions 0, 1 and 3 of the codeword hold the parities
of the message bits (1,2,4), (1,3,4) and (2,3,4), positions 2, 4, 5, 6 hold the
message bits in order; the integer product reduced modulo 2 is this XOR form. -/
theorem codeword_layout (a b c d : Bool) :
    encode [[a, b, c, d]]
      = some [[xor (xor a b) d, xor (xor a c) d, a, xor (xor b c) d, b, c, d]] := by
  cases a <;> cases b <;> cases c <;> cases d <;> rfl

set_option maxRecDepth 100000 in
theorem multi_bit_aux : ∀ a b c d e0 e1 e2 e3 e4 e5 e6 : Bool,
    (correct [[e0, e1, e2, e3, e4, e5, e6]] = some [[a, b, c, d]] ↔
      distance [xor a (xor b d), xor a (xor c d), a, xor b (xor c d), b, c, d]
          [e0, e1, e2, e3, e4, e5, e6] ≤ 1) := by
  decide

/-- C4. Multi-bit failure: a 7-bit row that differs from the codeword of `m` in
two or more bits is not decoded to `m`; `correct` gives `m` back exactly when
at most one bit of the codeword was flipped. -/
theorem multi_bit_failure (m cw row : List Bool) (hm : m.length = 4) (hrow : row.length = 7)
    (hcw : encode [m] = some [cw]) :
    (2 ≤ distance cw row → correct [row] ≠ some [m])
      ∧ (correct [row] = some [m] ↔ distance cw row ≤ 1) := by
  obtain ⟨a, b, c, d, rfl⟩ := length_four m hm
  obtain ⟨e0, e1, e2, e3, e4, e5, e6, rfl⟩ := length_seven row hrow
  rw [encode_single] at hcw
  cases hcw
  have h := multi_bit_aux a b c d e0 e1 e2 e3 e4 e5 e6
  refine ⟨fun hd hc => ?_, h⟩
  have := h.mp hc
  omega

theorem multi_bit_failure_witness :
    (2 ≤ distance [true, false, true, true, false, true, false]
          [false, true, true, true, false, true, false] →
        correct [[false, true, true, true, false, true, false]] ≠ some [[true, false, true, false]])
      ∧ (correct [[false, true, true, true, false, true, false]] = some [[true, false, true, false]] ↔
        distance [true, false, true, true, false, true, false]
          [false, true, true, true, false, true, false] ≤ 1) :=
  multi_bit_failure [true, false, true, false] [true, false, true, true, false, true, false]
    [false, true, true, true, false, true, false] rfl rfl rfl

/-- C7, as stated, fails: the codeword of `[0,0,1,0]` is not `[0,0,1,0,1,1,0]`
and the codeword of `[1,1,0,1]` is not `[1,1,0,1,0,0,1]`. -/
theorem known_encode_vectors_counterexample :
    ¬ (encode [[true, false, true, false]] = some [[true, false, true, true, false, true, false]]
      ∧ encode [[false, false, true, false]] = some [[false, false, true, false, true, true, false]]
      ∧ encode [[true, true, false, true]] = some [[true, true, false, true, false, false, true]]) := by
  decide

/-- C7, amended. Known encode vectors: `[1,0,1,0]`, `[0,0,1,0]` and `[1,1,0,1]`
are encoded to `[1,0,1,1,0,1,0]`, `[0,1,0,1,0,1,0]` and `[1,0,1,0,1,0,1]`; the
other two codewords the unit tests expect, `[0,0,1,0,1,1,0]` and
`[1,1,0,1,0,0,1]`, are those of `[1,1,1,0]` and `[0,0,0,1]`. -/
theorem known_encode_vectors :
    encode [[true, false, true, false]] = some [[true, false, true, true, false, true, false]]
      ∧ encode [[false, false, true, false]] = some [[false, true, false, true, false, true, false]]
      ∧ encode [[true, true, false, true]] = some [[true, false, true, false, true, false, true]]
      ∧ encode [[true, true, true, false]] = some [[false, false, true, false, true, true, false]]
      ∧ encode [[false, false, false, true]] = some [[true, true, false, true, false, false, true]]
      ∧ encode [[true, false, true, false], [true, true, true, false], [false, false, false, true]]
          = some [[true, false, true, true, false, true, false],
                  [false, false, true, false, true, true, false],
                  [true, true, false, true, false, false, true]] :=
  ⟨rfl, rfl, rfl, rfl, rfl, rfl⟩

/-- C3. Zero syndrome on clean codewords: the parity-check matrix applied to the
codeword of a 4-bit message row, reduced modulo 2, is the zero vector; and so is
its product with every column of the generator matrix. -/
theorem zero_syndrome (m : List Bool) (hm : m.length = 4) :
    (∃ cw, encode [m] = some [cw] ∧ matVec parityCheck cw ≠ none
        ∧ syndromeOf cw = some [false, false, false])
      ∧ ∀ j, j < 4 →
          syndromeOf (generator.map (fun grow => grow.getD j false))
            = some [false, false, false] := by
  obtain ⟨a, b, c, d, rfl⟩ := length_four m hm
  constructor
  · cases a <;> cases b <;> cases c <;> cases d <;> exact ⟨_, rfl, by decide, rfl⟩
  · intro j hj
    interval_cases j <;> rfl

theorem zero_syndrome_witness :
    (∃ cw, encode [[true, true, false, true]] = some [cw] ∧ matVec parityCheck cw ≠ none
        ∧ syndromeOf cw = some [false, false, false])
      ∧ ∀ j, j < 4 →
          syndromeOf (generator.map (fun grow => grow.getD j false))
            = some [false, false, false] :=
  zero_syndrome [true, true, false, true] rfl

/-- C6. Wrong-bit index locates the flip: the index computed from a codeword is
-1, and the index computed from a codeword with bit `p` flipped is `p`. -/
theorem wrong_bit_index_locates (m : List Bool) (hm : m.length = 4) :
    ∃ cw, encode [m] = some [cw] ∧ wrongBitIndex cw = some (-1)
      ∧ ∀ p : Nat, p < 7 → wrongBitIndex (flipBit cw p) = some (Int.ofNat p) := by
  obtain ⟨a, b, c, d, rfl⟩ := length_four m hm
  cases a <;> cases b <;> cases c <;> cases d <;>
    exact ⟨_, rfl, rfl, fun p hp => by interval_cases p <;> rfl⟩

theorem wrong_bit_index_locates_witness :
    ∃ cw, encode [[false, true, true, false]] = some [cw] ∧ wrongBitIndex cw = some (-1)
      ∧ ∀ p : Nat, p < 7 → wrongBitIndex (flipBit cw p) = some (Int.ofNat p) :=
  wrong_bit_index_locates [false, true, true, false] rfl

/-! ## Batches -/

/-- C8. Batch independence: `encode` and `correct` return as many rows as they
are given, row `r` of the result being the result for the one-row batch of row
`r` of the input; and an iteration of `correct` leaves every other row of its
working copy, and of the result, as it was. -/
theorem batch_independence (msgs codes : BitMatrix)
    (hm : ∀ row ∈ msgs, row.length = 4) (hc : ∀ row ∈ codes, row.length = 7) :
    (∃ out : BitMatrix, encode msgs = some out ∧ out.length = msgs.length
        ∧ ∀ (r : Nat) row, msgs[r]? = some row → ∃ o, out[r]? = some o ∧ encode [row] = some [o])
      ∧ (∃ out : BitMatrix, correct codes = some out ∧ out.length = codes.length
        ∧ ∀ (r : Nat) row, codes[r]? = some row → ∃ o, out[r]? = some o ∧ correct [row] = some [o])
      ∧ (∀ r st st1, correctBody r st = some st1 →
          ∀ r1, r1 ≠ r → st1.1[r1]? = st.1[r1]? ∧ st1.2[r1]? = st.2[r1]?) := by
  refine ⟨?_, ?_, correctBody_other_rows⟩
  · obtain ⟨out, hout⟩ := mapOpt_total encodeRow msgs (fun row hrow =>
      (encodeRow_total row (hm row hrow)).imp (fun _ h => h.1))
    refine ⟨out, by rw [encode_eq, hout], mapOpt_length _ _ _ hout, fun r row hrow => ?_⟩
    obtain ⟨o, ho, hfo⟩ := mapOpt_getElem? _ _ _ hout r row hrow
    exact ⟨o, ho, by rw [encode_eq, mapOpt_single _ _ _ hfo]⟩
  · obtain ⟨out, hout⟩ := mapOpt_total decodeRow codes (fun row hrow => by
      obtain ⟨_, _, _, _, o, ho, _⟩ := decodeRow_total row (hc row hrow)
      exact ⟨o, ho⟩)
    refine ⟨out, by rw [correct_eq, hout], mapOpt_length _ _ _ hout, fun r row hrow => ?_⟩
    obtain ⟨o, ho, hfo⟩ := mapOpt_getElem? _ _ _ hout r row hrow
    exact ⟨o, ho, by rw [correct_eq, mapOpt_single _ _ _ hfo]⟩

theorem batch_independence_witness :
    (∃ out : BitMatrix, encode [[true, false, true, false], [false, false, false, true]] = some out
        ∧ out.length = [[true, false, true, false], [false, false, false, true]].length
        ∧ ∀ (r : Nat) row, [[true, false, true, false], [false, false, false, true]][r]? = some row →
            ∃ o, out[r]? = some o ∧ encode [row] = some [o])
      ∧ (∃ out : BitMatrix, correct [[true, false, true, true, false, true, true],
                         [false, false, true, false, true, true, false]] = some out
        ∧ out.length = [[true, false, true, true, false, true, true],
                         [false, false, true, false, true, true, false]].length
        ∧ ∀ (r : Nat) row, [[true, false, true, true, false, true, true],
                     [false, false, true, false, true, true, false]][r]? = some row →
            ∃ o, out[r]? = some o ∧ correct [row] = some [o])
      ∧ (∀ r st st1, correctBody r st = some st1 →
          ∀ r1, r1 ≠ r → st1.1[r1]? = st.1[r1]? ∧ st1.2[r1]? = st.2[r1]?) :=
  batch_independence [[true, false, true, false], [false, false, false, true]]
    [[true, false, true, true, false, true, true], [false, false, true, false, true, true, false]]
    (by decide) (by decide)

/-- C9. `correct` is total and in bounds: for rows of width 7 the wrong-bit index
lies between -1 and 6, no access leaves the matrix (the result is not `none`),
and the result has as many rows as the input, each of width 4. -/
theorem correct_total_in_bounds (data : BitMatrix) (h : ∀ row ∈ data, row.length = 7) :
    (∀ row ∈ data, ∃ idx, wrongBitIndex row = some idx ∧ -1 ≤ idx ∧ idx ≤ 6)
      ∧ ∃ out : BitMatrix, correct data = some out ∧ out.length = data.length
          ∧ ∀ o ∈ out, o.length = 4 := by
  constructor
  · intro row hrow
    obtain ⟨idx, hidx, hlo, hhi, _⟩ := decodeRow_total row (h row hrow)
    exact ⟨idx, hidx, hlo, hhi⟩
  · obtain ⟨out, hout⟩ := mapOpt_total decodeRow data (fun row hrow => by
      obtain ⟨_, _, _, _, o, ho, _⟩ := decodeRow_total row (h row hrow)
      exact ⟨o, ho⟩)
    refine ⟨out, by rw [correct_eq, hout], mapOpt_length _ _ _ hout, fun o ho => ?_⟩
    obtain ⟨row, hrow, hdec⟩ := mapOpt_mem _ _ _ hout o ho
    obtain ⟨_, _, _, _, o1, ho1, hlen⟩ := decodeRow_total row (h row hrow)
    rw [hdec] at ho1
    cases ho1
    exact hlen

theorem correct_total_in_bounds_witness :
    (∀ row ∈ [[true, true, true, true, true, true, false], [false, true, false, false, false, false, false]],
        ∃ idx, wrongBitIndex row = some idx ∧ -1 ≤ idx ∧ idx ≤ 6)
      ∧ ∃ out : BitMatrix, correct [[true, true, true, true, true, true, false],
                        [false, true, false, false, false, false, false]] = some out
          ∧ out.length = [[true, true, true, true, true, true, false],
                        [false, true, false, false, false, false, false]].length
          ∧ ∀ o ∈ out, o.length = 4 :=
  correct_total_in_bounds
    [[true, true, true, true, true, true, false], [false, true, false, false, false, false, false]]
    (by decide)

/-! ## Reading the file -/

/-- C10. Acceptance iff valid: for a readable file and either mode, the error
message is empty if and only if every line, its carriage returns removed, has
the required width (4 when encoding, 7 when decoding) and holds only the
characters `0` and `1`. -/
theorem acceptance_iff_valid (content : List Char) (encoding : Bool) :
    (getMatrixFromFile true content encoding).1 = []
      ↔ ∀ line ∈ readLines content,
          (removeCR line).length = (if encoding then 4 else 7)
            ∧ ∀ c ∈ removeCR line, c = '0' ∨ c = '1' := by
  simp only [getMatrixFromFile, Bool.not_true, Bool.false_eq_true, if_false]
  exact readLoop_accepts_iff _ _ 0 []

/-! ## The code as a whole -/

/-- C14. Decoder output is within one bit of a codeword: for every 7-bit row
`c`, the codeword of the decoded message differs from `c` in at most one
position and equals `c` exactly when the syndrome of `c` is zero; the row
`correct` reads the message from, after its flip, has zero syndrome. -/
theorem decoded_within_one_bit (c : List Bool) (hc : c.length = 7) :
    ∃ m cw idx row1, correct [c] = some [m] ∧ encode [m] = some [cw]
      ∧ distance cw c ≤ 1
      ∧ (cw = c ↔ syndromeOf c = some [false, false, false])
      ∧ wrongBitIndex c = some idx ∧ flipWrongBit [c] 0 idx = some [row1]
      ∧ syndromeOf row1 = some [false, false, false] ∧ row1 = cw := by
  obtain ⟨e0, e1, e2, e3, e4, e5, e6, rfl⟩ := length_seven c hc
  cases e0 <;> cases e1 <;> cases e2 <;> cases e3 <;> cases e4 <;> cases e5 <;> cases e6 <;>
    exact ⟨_, _, _, _, rfl, rfl, by decide, by decide, rfl, rfl, rfl, rfl⟩

theorem decoded_within_one_bit_witness :
    ∃ m cw idx row1, correct [[true, true, true, false, false, false, true]] = some [m]
      ∧ encode [m] = some [cw]
      ∧ distance cw [true, true, true, false, false, false, true] ≤ 1
      ∧ (cw = [true, true, true, false, false, false, true]
          ↔ syndromeOf [true, true, true, false, false, false, true]
              = some [false, false, false])
      ∧ wrongBitIndex [true, true, true, false, false, false, true] = some idx
      ∧ flipWrongBit [[true, true, true, false, false, false, true]] 0 idx = some [row1]
      ∧ syndromeOf row1 = some [false, false, false] ∧ row1 = cw :=
  decoded_within_one_bit [true, true, true, false, false, false, true] rfl

set_option maxRecDepth 100000 in
theorem min_distance_aux : ∀ a b c d a1 b1 c1 d1 : Bool,
    [a, b, c, d] ≠ [a1, b1, c1, d1] →
    3 ≤ distance [xor a (xor b d), xor a (xor c d), a, xor b (xor c d), b, c, d]
          [xor a1 (xor b1 d1), xor a1 (xor c1 d1), a1, xor b1 (xor c1 d1), b1, c1, d1] := by
  decide

theorem distance_flipBit_le (c : List Bool) : ∀ p, distance c (flipBit c p) ≤ 1 := by
  induction c with
  | nil => intro p; simp [flipBit, distance]
  | cons b bs ih =>
    intro p
    have hself : ∀ l : List Bool, distance l l = 0 := by
      intro l
      induction l with
      | nil => rfl
      | cons x xs ihx => simp [distance, ihx]
    cases p with
    | zero => cases b <;> simp [flipBit, distance, hself]
    | succ p => simpa [flipBit, distance] using ih p

theorem distance_triangle : ∀ a b c : List Bool, a.length = b.length → b.length = c.length →
    distance a c ≤ distance a b + distance b c := by
  intro a
  induction a with
  | nil => intro b c _ _; simp [distance]
  | cons x xs ih =>
    intro b c hab hbc
    cases b with
    | nil => simp at hab
    | cons y ys =>
      cases c with
      | nil => simp at hbc
      | cons z zs =>
        have h := ih ys zs (by simpa using hab) (by simpa using hbc)
        simp only [distance]
        cases x <;> cases y <;> cases z <;> simp <;> omega

theorem distance_comm : ∀ a b : List Bool, distance a b = distance b a := by
  intro a
  induction a with
  | nil => intro b; cases b <;> simp [distance]
  | cons x xs ih =>
    intro b
    cases b with
    | nil => simp [distance]
    | cons y ys => simp only [distance, ih ys]; cases x <;> cases y <;> simp

theorem length_flipBit (c : List Bool) : ∀ p, (flipBit c p).length = c.length := by
  induction c with
  | nil => intro p; simp [flipBit]
  | cons b bs ih => intro p; cases p <;> simp [flipBit, ih]

theorem distance_self (l : List Bool) : distance l l = 0 := by
  induction l with
  | nil => rfl
  | cons x xs ih => simp [distance, ih]

/-- C15. Minimum distance 3: the codewords of two distinct 4-bit message rows
differ in at least 3 positions; so `encode` is injective, and no single flip
turns a codeword into another one or into a single flip of another one. -/
theorem minimum_distance_three (m1 m2 : List Bool) (h1 : m1.length = 4) (h2 : m2.length = 4)
    (hne : m1 ≠ m2) :
    ∃ c1 c2, encode [m1] = some [c1] ∧ encode [m2] = some [c2]
      ∧ 3 ≤ distance c1 c2 ∧ c1 ≠ c2
      ∧ (∀ p, flipBit c1 p ≠ c2) ∧ ∀ p q, flipBit c1 p ≠ flipBit c2 q := by
  obtain ⟨a, b, c, d, rfl⟩ := length_four m1 h1
  obtain ⟨a1, b1, c1, d1, rfl⟩ := length_four m2 h2
  have hd := min_distance_aux a b c d a1 b1 c1 d1 hne
  refine ⟨_, _, encode_single a b c d, encode_single a1 b1 c1 d1, hd, ?_, ?_, ?_⟩
  · intro heq
    rw [heq, distance_self] at hd
    omega
  · intro p heq
    have := distance_flipBit_le
      [xor a (xor b d), xor a (xor c d), a, xor b (xor c d), b, c, d] p
    rw [heq] at this
    omega
  · intro p q heq
    have hp := distance_flipBit_le
      [xor a (xor b d), xor a (xor c d), a, xor b (xor c d), b, c, d] p
    have hq := distance_flipBit_le
      [xor a1 (xor b1 d1), xor a1 (xor c1 d1), a1, xor b1 (xor c1 d1), b1, c1, d1] q
    rw [heq] at hp
    rw [distance_comm] at hq
    have htri := distance_triangle
      [xor a (xor b d), xor a (xor c d), a, xor b (xor c d), b, c, d]
      (flipBit [xor a1 (xor b1 d1), xor a1 (xor c1 d1), a1, xor b1 (xor c1 d1), b1, c1, d1] q)
      [xor a1 (xor b1 d1), xor a1 (xor c1 d1), a1, xor b1 (xor c1 d1), b1, c1, d1]
      (by rw [length_flipBit]; rfl) (by rw [length_flipBit])
    omega

theorem minimum_distance_three_witness :
    ∃ c1 c2, encode [[true, false, false, false]] = some [c1]
      ∧ encode [[true, true, false, false]] = some [c2]
      ∧ 3 ≤ distance c1 c2 ∧ c1 ≠ c2
      ∧ (∀ p, flipBit c1 p ≠ c2) ∧ ∀ p q, flipBit c1 p ≠ flipBit c2 q :=
  minimum_distance_three [true, false, false, false] [true, true, false, false] rfl rfl
    (by decide)

/-- C16. Linearity of `encode` over GF(2): the codeword of the bitwise xor of two
4-bit message rows is the bitwise xor of their codewords, and the all-zero
message has the all-zero codeword. -/
theorem encode_linear (a b : List Bool) (ha : a.length = 4) (hb : b.length = 4) :
    (∃ ca cb, encode [a] = some [ca] ∧ encode [b] = some [cb]
        ∧ encode [xorRows a b] = some [xorRows ca cb])
      ∧ encode [[false, false, false, false]]
          = some [[false, false, false, false, false, false, false]] := by
  obtain ⟨a0, a1, a2, a3, rfl⟩ := length_four a ha
  obtain ⟨b0, b1, b2, b3, rfl⟩ := length_four b hb
  refine ⟨⟨_, _, encode_single a0 a1 a2 a3, encode_single b0 b1 b2 b3, ?_⟩, rfl⟩
  simp only [xorRows, List.zipWith_cons_cons, List.zipWith_nil_right, encode_single]
  cases a0 <;> cases a1 <;> cases a2 <;> cases a3 <;>
    cases b0 <;> cases b1 <;> cases b2 <;> cases b3 <;> rfl

theorem encode_linear_witness :
    (∃ ca cb, encode [[true, true, false, true]] = some [ca]
        ∧ encode [[false, true, true, false]] = some [cb]
        ∧ encode [xorRows [true, true, false, true] [false, true, true, false]]
            = some [xorRows ca cb])
      ∧ encode [[false, false, false, false]]
          = some [[false, false, false, false, false, false, false]] :=
  encode_linear [true, true, false, true] [false, true, true, false] rfl rfl

/-! ## The error messages -/

/-- C11, as stated, fails: in encoding mode the file with the lines `10a0` and
`101` has a line of length 3, and is rejected with the invalid-character
message of its first line, not with a length-mismatch message. -/
theorem length_mismatch_rejection_counterexample :
    (∃ line ∈ readLines ['1', '0', 'a', '0', '\n', '1', '0', '1'],
        line.length ≠ 4 ∧ (removeCR line).length ≠ 4)
      ∧ (getMatrixFromFile true ['1', '0', 'a', '0', '\n', '1', '0', '1'] true).1
          = String.toList "Error: invalid character a at line 1"
      ∧ ¬ ∃ K L W, (getMatrixFromFile true ['1', '0', 'a', '0', '\n', '1', '0', '1'] true).1
          = lengthMessage K L W := by
  refine ⟨⟨['1', '0', '1'], by decide, by decide, by decide⟩, by decide, ?_⟩
  rintro ⟨K, L, W, h⟩
  have hmsg : (getMatrixFromFile true ['1', '0', 'a', '0', '\n', '1', '0', '1'] true).1
      = charMessage 'a' 1 := by decide
  rw [hmsg] at h
  simp [charMessage, lengthMessage, String.toList] at h

/-- C11, amended. Length-mismatch rejection: a readable input with a line whose
length, carriage returns removed, is not the required width is rejected; when
every earlier line is valid, the message is the length-mismatch message with
the 1-based number of that line, its length and the required width. -/
theorem length_mismatch_rejection (content : List Char) (encoding : Bool) (k : Nat)
    (line : List Char) (hk : (readLines content)[k]? = some line)
    (hlen : (removeCR line).length ≠ (if encoding then 4 else 7)) :
    (getMatrixFromFile true content encoding).1 ≠ []
      ∧ ((∀ j l, j < k → (readLines content)[j]? = some l →
            (removeCR l).length = (if encoding then 4 else 7)
              ∧ ∀ c ∈ removeCR l, c = '0' ∨ c = '1') →
          (getMatrixFromFile true content encoding).1
            = lengthMessage (k + 1) (removeCR line).length (if encoding then 4 else 7)) := by
  simp only [getMatrixFromFile, Bool.not_true, Bool.false_eq_true, if_false]
  have hbad : ¬ ValidLine (if encoding then 4 else 7) (removeCR line) := fun hv => hlen hv.1
  have hrej : (readLoop (if encoding then 4 else 7) (readLines content) 0 []).1 ≠ [] := by
    intro hacc
    exact hbad ((readLoop_accepts_iff _ _ 0 []).mp hacc line (List.getElem?_mem hk))
  refine ⟨hrej, fun hbefore => ?_⟩
  rcases readLoop_message (if encoding then 4 else 7) (readLines content) 0 [] with
    hempty | ⟨k1, line1, hrep⟩
  · exact absurd hempty hrej
  · obtain ⟨hkk, hll⟩ := reports_first _ _ _ _ k1 line1 hrep k line hk hbad hbefore
    subst hkk
    subst hll
    rcases hrep.2.2 with ⟨_, hmsg⟩ | ⟨hlen1, _⟩
    · simpa using hmsg
    · exact absurd hlen1 hlen

theorem length_mismatch_rejection_witness :
    (getMatrixFromFile true ['1', '0', '1', '0', '\n', '1', '0', '1'] true).1 ≠ []
      ∧ ((∀ j l, j < 1 → (readLines ['1', '0', '1', '0', '\n', '1', '0', '1'])[j]? = some l →
            (removeCR l).length = (if true then 4 else 7)
              ∧ ∀ c ∈ removeCR l, c = '0' ∨ c = '1') →
          (getMatrixFromFile true ['1', '0', '1', '0', '\n', '1', '0', '1'] true).1
            = lengthMessage (1 + 1) (removeCR ['1', '0', '1']).length (if true then 4 else 7)) :=
  length_mismatch_rejection ['1', '0', '1', '0', '\n', '1', '0', '1'] true 1 ['1', '0', '1']
    (by decide) (by decide)

/-- C12, as stated, fails: in encoding mode the one-line file `10a` holds the
character `a` and is rejected with the length-mismatch message, not with an
invalid-character message; and the file `1010` followed by a carriage return
holds a character other than `0` and `1` and is accepted. -/
theorem invalid_character_rejection_counterexample :
    (∃ line ∈ readLines ['1', '0', 'a'], ∃ c ∈ line, c ≠ '0' ∧ c ≠ '1')
      ∧ (getMatrixFromFile true ['1', '0', 'a'] true).1
          = String.toList "Error: line 1 is of length 3, not 4"
      ∧ (¬ ∃ c K, (getMatrixFromFile true ['1', '0', 'a'] true).1 = charMessage c K)
      ∧ (∃ line ∈ readLines ['1', '0', '1', '0', '\r'], ∃ c ∈ line, c ≠ '0' ∧ c ≠ '1')
      ∧ getMatrixFromFile true ['1', '0', '1', '0', '\r'] true
          = ([], [[true, false, true, false]]) := by
  refine ⟨⟨['1', '0', 'a'], by decide, 'a', by decide, by decide, by decide⟩, by decide, ?_,
    ⟨['1', '0', '1', '0', '\r'], by decide, '\r', by decide, by decide, by decide⟩, by decide⟩
  rintro ⟨c, K, h⟩
  have hmsg : (getMatrixFromFile true ['1', '0', 'a'] true).1 = lengthMessage 1 3 4 := by
    decide
  rw [hmsg] at h
  simp [charMessage, lengthMessage, String.toList] at h

/-- C12, amended. Invalid-character rejection: a readable input with a line that
holds, carriage returns removed, a character other than `0` and `1` is
rejected; when every earlier line is valid and the line has the required width,
the message is the invalid-character message with the first such character of
the line and the 1-based number of the line. -/
theorem invalid_character_rejection (content : List Char) (encoding : Bool) (k : Nat)
    (line : List Char) (c : Char) (hk : (readLines content)[k]? = some line)
    (hc : c ∈ removeCR line) (hne : ¬ (c = '0' ∨ c = '1')) :
    (getMatrixFromFile true content encoding).1 ≠ []
      ∧ ((∀ j l, j < k → (readLines content)[j]? = some l →
            (removeCR l).length = (if encoding then 4 else 7)
              ∧ ∀ x ∈ removeCR l, x = '0' ∨ x = '1') →
          (removeCR line).length = (if encoding then 4 else 7) →
          ∃ pre c1 post, removeCR line = pre ++ c1 :: post
            ∧ (∀ x ∈ pre, x = '0' ∨ x = '1') ∧ ¬ (c1 = '0' ∨ c1 = '1')
            ∧ (getMatrixFromFile true content encoding).1 = charMessage c1 (k + 1)) := by
  simp only [getMatrixFromFile, Bool.not_true, Bool.false_eq_true, if_false]
  have hbad : ¬ ValidLine (if encoding then 4 else 7) (removeCR line) :=
    fun hv => hne (hv.2 c hc)
  have hrej : (readLoop (if encoding then 4 else 7) (readLines content) 0 []).1 ≠ [] := by
    intro hacc
    exact hbad ((readLoop_accepts_iff _ _ 0 []).mp hacc line (List.getElem?_mem hk))
  refine ⟨hrej, fun hbefore hlen => ?_⟩
  rcases readLoop_message (if encoding then 4 else 7) (readLines content) 0 [] with
    hempty | ⟨k1, line1, hrep⟩
  · exact absurd hempty hrej
  · obtain ⟨hkk, hll⟩ := reports_first _ _ _ _ k1 line1 hrep k line hk hbad hbefore
    subst hkk
    subst hll
    rcases hrep.2.2 with ⟨hlen1, _⟩ | ⟨_, pre, c1, post, hsplit, hpre, hc1, hmsg⟩
    · exact absurd hlen hlen1
    · exact ⟨pre, c1, post, hsplit, hpre, hc1, by simpa using hmsg⟩

theorem invalid_character_rejection_witness :
    (getMatrixFromFile true ['0', '1', '1', '1', '\n', '1', 'x', '1', 'y', '\r'] true).1 ≠ []
      ∧ ((∀ j l, j < 1 →
            (readLines ['0', '1', '1', '1', '\n', '1', 'x', '1', 'y', '\r'])[j]? = some l →
            (removeCR l).length = (if true then 4 else 7)
              ∧ ∀ x ∈ removeCR l, x = '0' ∨ x = '1') →
          (removeCR ['1', 'x', '1', 'y', '\r']).length = (if true then 4 else 7) →
          ∃ pre c1 post, removeCR ['1', 'x', '1', 'y', '\r'] = pre ++ c1 :: post
            ∧ (∀ x ∈ pre, x = '0' ∨ x = '1') ∧ ¬ (c1 = '0' ∨ c1 = '1')
            ∧ (getMatrixFromFile true ['0', '1', '1', '1', '\n', '1', 'x', '1', 'y', '\r'] true).1
                = charMessage c1 (1 + 1)) :=
  invalid_character_rejection ['0', '1', '1', '1', '\n', '1', 'x', '1', 'y', '\r'] true 1
    ['1', 'x', '1', 'y', '\r'] 'y' (by decide) (by decide) (by decide)

/-- C13. Error messages identify the offender: when a readable input is
rejected, the message is about the first line that is not valid, with its
1-based number: either the length-mismatch message with the length of that line
(carriage returns removed) and the required width, or, that length being right,
the invalid-character message with the first character of the line that is
neither `0` nor `1`. -/
theorem error_identifies_offender (content : List Char) (encoding : Bool)
    (hrej : (getMatrixFromFile true content encoding).1 ≠ []) :
    ∃ k line, (readLines content)[k]? = some line
      ∧ (∀ j l, j < k → (readLines content)[j]? = some l →
          (removeCR l).length = (if encoding then 4 else 7)
            ∧ ∀ c ∈ removeCR l, c = '0' ∨ c = '1')
      ∧ (((removeCR line).length ≠ (if encoding then 4 else 7)
            ∧ (getMatrixFromFile true content encoding).1
                = lengthMessage (k + 1) (removeCR line).length (if encoding then 4 else 7))
          ∨ ((removeCR line).length = (if encoding then 4 else 7)
            ∧ ∃ pre c post, removeCR line = pre ++ c :: post
                ∧ (∀ x ∈ pre, x = '0' ∨ x = '1') ∧ ¬ (c = '0' ∨ c = '1')
                ∧ (getMatrixFromFile true content encoding).1 = charMessage c (k + 1))) := by
  simp only [getMatrixFromFile, Bool.not_true, Bool.false_eq_true, if_false] at hrej ⊢
  rcases readLoop_message (if encoding then 4 else 7) (readLines content) 0 [] with
    hempty | ⟨k, line, hrep⟩
  · exact absurd hempty hrej
  · exact ⟨k, line, by simpa [Reports, ValidLine] using hrep⟩

theorem error_identifies_offender_witness :
    ∃ k line, (readLines ['1', '0', '1', '0', '1', '0', '1', '\n', '1', '2'])[k]? = some line
      ∧ (∀ j l, j < k → (readLines ['1', '0', '1', '0', '1', '0', '1', '\n', '1', '2'])[j]? = some l →
          (removeCR l).length = (if false then 4 else 7)
            ∧ ∀ c ∈ removeCR l, c = '0' ∨ c = '1')
      ∧ (((removeCR line).length ≠ (if false then 4 else 7)
            ∧ (getMatrixFromFile true ['1', '0', '1', '0', '1', '0', '1', '\n', '1', '2'] false).1
                = lengthMessage (k + 1) (removeCR line).length (if false then 4 else 7))
          ∨ ((removeCR line).length = (if false then 4 else 7)
            ∧ ∃ pre c post, removeCR line = pre ++ c :: post
                ∧ (∀ x ∈ pre, x = '0' ∨ x = '1') ∧ ¬ (c = '0' ∨ c = '1')
                ∧ (getMatrixFromFile true ['1', '0', '1', '0', '1', '0', '1', '\n', '1', '2'] false).1
                    = charMessage c (k + 1))) :=
  error_identifies_offender ['1', '0', '1', '0', '1', '0', '1', '\n', '1', '2'] false (by decide)

/-! ## Parsing and rendering -/

/-- Parse/render round trip on the rows: for a readable input that is accepted,
the matrix has one row per line, each row of the required width, and
`matrixRowToString` of row `r` is line `r` with its carriage returns removed;
entry `(r, i)` is true exactly when character `i` of that line is `1`. -/
theorem parse_render_round_trip (content : List Char) (encoding : Bool)
    (hacc : (getMatrixFromFile true content encoding).1 = []) :
    (getMatrixFromFile true content encoding).2.length = (readLines content).length
      ∧ (∀ row ∈ (getMatrixFromFile true content encoding).2,
          row.length = (if encoding then 4 else 7))
      ∧ ∀ (r : Nat) (line : List Char), (readLines content)[r]? = some line →
          ∃ row, (getMatrixFromFile true content encoding).2[r]? = some row
            ∧ matrixRowToString row = removeCR line
            ∧ ∀ i : Nat, row[i]? = some true ↔ (removeCR line)[i]? = some '1' := by
  simp only [getMatrixFromFile, Bool.not_true, Bool.false_eq_true, if_false] at hacc ⊢
  have hvalid := (readLoop_accepts_iff _ _ 0 []).mp hacc
  have hmat := readLoop_matrix (if encoding then 4 else 7) (readLines content) []
    (by simp) hvalid
  simp only [List.length_nil, List.nil_append] at hmat
  rw [hmat]
  refine ⟨by simp, ?_, ?_⟩
  · intro row hrow
    obtain ⟨line, hline, rfl⟩ := List.mem_map.mp hrow
    simpa using (hvalid line hline).1
  · intro r line hr
    refine ⟨(removeCR line).map (fun c => c == '1'), by simp [hr],
      matrixRowToString_parse _ (hvalid line (List.getElem?_mem hr)).2, ?_⟩
    intro i
    cases hi : (removeCR line)[i]? with
    | none => simp [hi]
    | some c => simp [hi]

theorem parse_render_round_trip_witness :
    (getMatrixFromFile true ['1', '0', '1', '0', '\r', '\n', '0', '1', '1', '1'] true).2.length
        = (readLines ['1', '0', '1', '0', '\r', '\n', '0', '1', '1', '1']).length
      ∧ (∀ row ∈ (getMatrixFromFile true
            ['1', '0', '1', '0', '\r', '\n', '0', '1', '1', '1'] true).2,
          row.length = (if true then 4 else 7))
      ∧ ∀ (r : Nat) (line : List Char),
          (readLines ['1', '0', '1', '0', '\r', '\n', '0', '1', '1', '1'])[r]? = some line →
          ∃ row, (getMatrixFromFile true
              ['1', '0', '1', '0', '\r', '\n', '0', '1', '1', '1'] true).2[r]? = some row
            ∧ matrixRowToString row = removeCR line
            ∧ ∀ i : Nat, row[i]? = some true ↔ (removeCR line)[i]? = some '1' :=
  parse_render_round_trip ['1', '0', '1', '0', '\r', '\n', '0', '1', '1', '1'] true (by decide)

theorem readLoopCols_valid (numCols : Nat) (lines : List (List Char)) :
    ∀ (currentRow : Nat) (messages : BitMatrix) (cols : Nat),
      (∀ line ∈ lines, ValidLine numCols (removeCR line)) →
      readLoopCols numCols lines currentRow messages cols
        = if lines = [] then cols else numCols := by
  induction lines with
  | nil => intro currentRow messages cols _; simp [readLoopCols]
  | cons rawLine rest ih =>
    intro currentRow messages cols hvalid
    obtain ⟨hlen, hchars⟩ := hvalid rawLine (by simp)
    have hne : ((removeCR rawLine).length != numCols) = false := by simp [hlen]
    have hnone := (scanLine_none_iff currentRow (removeCR rawLine) 0
      (conservativeResize (currentRow + 1) numCols messages)).mpr hchars
    simp only [readLoopCols, hne, Bool.false_eq_true, if_false]
    cases hres : scanLine currentRow 0 (removeCR rawLine)
        (conservativeResize (currentRow + 1) numCols messages) with
    | mk bad messages1 =>
      rw [hres] at hnone
      simp only at hnone
      subst hnone
      simp only [ih (currentRow + 1) messages1 numCols
        (fun line hline => hvalid line (by simp [hline]))]
      simp

/-- The column count of the matrix of an accepted input: the required width when
the input has a line, and none when it has no line. -/
theorem getMatrixCols_of_accepted (content : List Char) (encoding : Bool)
    (hacc : (getMatrixFromFile true content encoding).1 = []) :
    getMatrixCols true content encoding
      = if readLines content = [] then 0 else (if encoding then 4 else 7) := by
  simp only [getMatrixFromFile, Bool.not_true, Bool.false_eq_true, if_false] at hacc
  simp only [getMatrixCols, Bool.not_true, Bool.false_eq_true, if_false]
  exact readLoopCols_valid _ _ 0 [] 0 ((readLoop_accepts_iff _ _ 0 []).mp hacc)

theorem getMatrixCols_of_accepted_witness :
    getMatrixCols true ['1', '0', '1', '0', '\r', '\n', '0', '1', '1', '1'] true
      = if readLines ['1', '0', '1', '0', '\r', '\n', '0', '1', '1', '1'] = [] then 0
        else (if true then 4 else 7) :=
  getMatrixCols_of_accepted ['1', '0', '1', '0', '\r', '\n', '0', '1', '1', '1'] true
    (by decide)

/-- C17, at the failing input: a readable file without characters is accepted in
either mode, with no line and no row, and the matrix returned is the
default-constructed one, whose column count is 0 and not the required width 4
or 7. -/
theorem empty_file_matrix_has_no_columns :
    readLines [] = []
      ∧ getMatrixFromFile true [] true = ([], [])
      ∧ getMatrixCols true [] true = 0 ∧ getMatrixCols true [] true ≠ 4
      ∧ getMatrixFromFile true [] false = ([], [])
      ∧ getMatrixCols true [] false = 0 ∧ getMatrixCols true [] false ≠ 7 := by
  decide

end Hamming
